import Mathlib

/-!
Verification of the qasm state-vector simulator
(`qiskit/simulators/_qasmsimulator.py`).

The Python source is shallowly embedded:

* machine integers become `ℕ` (all index arithmetic in the source is on
  non-negative ints that never overflow);
* the `2^n`-entry complex amplitude array becomes a total function
  `ℕ → ℂ` (the source only reads and writes indices below `2^n`);
* floating-point complex arithmetic becomes exact `ℂ`/`ℝ` arithmetic;
* the seeded stream of `random.random()` draws becomes a function
  `ℕ → ℝ` together with a cursor that each draw advances by one;
* in-place array mutation becomes `Function.update` folded over the
  same iteration ranges the Python loops use;
* the fallible operation dispatch becomes `Option`.
-/

namespace QasmSim

/-- Embedding of `QasmSimulator._index1` (lines 107-125): takes a
bitstring `k` and inserts bit `b` as the `i`th bit, shifting bits `≥ i`
over to make room.  The `let`s follow the successive assignments to
`retval` in the source. -/
def index1 (b i k : ℕ) : ℕ :=
  let lowbits := k &&& ((1 <<< i) - 1)
  let r1 := k >>> i
  let r2 := r1 <<< 1
  let r3 := r2 ||| b
  let r4 := r3 <<< i
  r4 ||| lowbits

/-- Embedding of `QasmSimulator._index2` (lines 127-144): inserts bit
`b1` at position `i1` and bit `b2` at position `i2`.  The source asserts
`i1 ≠ i2`; the branch structure is kept verbatim. -/
def index2 (b1 i1 b2 i2 k : ℕ) : ℕ :=
  if i1 > i2 then
    index1 b2 i2 (index1 b1 (i1 - 1) k)
  else
    index1 b1 i1 (index1 b2 (i2 - 1) k)

/-- A bit value (`0` or `1`) tested at position `j`. -/
lemma testBit_of_le_one {b : ℕ} (hb : b ≤ 1) (j : ℕ) :
    b.testBit j = (decide (b = 1) && decide (j = 0)) := by
  interval_cases b
  · simp
  · rcases Nat.eq_zero_or_pos j with hj | hj
    · subst hj; simp
    · rw [Nat.testBit_to_div_mod]
      have h2 : (1 : ℕ) < 2 ^ j := Nat.one_lt_two_pow_iff.mpr (by omega)
      rw [Nat.div_eq_of_lt h2]
      simp
      omega

lemma testBit_shiftLeft_one_sub_one (i p : ℕ) :
    ((1 <<< i) - 1 : ℕ).testBit p = decide (p < i) := by
  rw [Nat.one_shiftLeft, Nat.testBit_two_pow_sub_one]

lemma index1_testBit_lt {p i : ℕ} (b k : ℕ) (hp : p < i) :
    (index1 b i k).testBit p = k.testBit p := by
  unfold index1
  simp only [Nat.testBit_lor, Nat.testBit_shiftLeft, Nat.testBit_land,
    testBit_shiftLeft_one_sub_one, ge_iff_le]
  have h1 : ¬ i ≤ p := by omega
  simp [h1, hp]

lemma index1_testBit_self {b : ℕ} (i k : ℕ) (hb : b ≤ 1) :
    (index1 b i k).testBit i = decide (b = 1) := by
  unfold index1
  simp only [Nat.testBit_lor, Nat.testBit_shiftLeft, Nat.testBit_land,
    testBit_shiftLeft_one_sub_one, ge_iff_le, le_refl, Nat.sub_self]
  rw [testBit_of_le_one hb 0]
  simp

lemma index1_testBit_gt {p i : ℕ} (b k : ℕ) (hb : b ≤ 1) (hp : i < p) :
    (index1 b i k).testBit p = k.testBit (p - 1) := by
  unfold index1
  simp only [Nat.testBit_lor, Nat.testBit_shiftLeft, Nat.testBit_shiftRight,
    Nat.testBit_land, testBit_shiftLeft_one_sub_one, ge_iff_le]
  have h1 : i ≤ p := le_of_lt hp
  have h2 : ¬ p < i := by omega
  have h3 : (1 : ℕ) ≤ p - i := by omega
  have h4 : ¬ (p - i = 0) := by omega
  rw [testBit_of_le_one hb (p - i)]
  simp only [h1, h2, h4, decide_True, decide_False, decide_eq_false,
    Bool.true_and, Bool.and_false, Bool.or_false]
  have h5 : i + (p - i - 1) = p - 1 := by omega
  simp [h5, h3]

/-- Bit characterization of the two-insertion composition used by
`index2`: the higher bit is first inserted at `hi - 1` and then shifted
into place by the insertion at the lower position `lo`. -/
lemma index1_index1_testBit (bl lo bh hi k : ℕ) (hbl : bl ≤ 1) (hbh : bh ≤ 1)
    (hlt : lo < hi) :
    ((index1 bl lo (index1 bh (hi - 1) k)).testBit hi = decide (bh = 1)) ∧
    ((index1 bl lo (index1 bh (hi - 1) k)).testBit lo = decide (bl = 1)) ∧
    (∀ p, p ≠ hi → p ≠ lo →
      (index1 bl lo (index1 bh (hi - 1) k)).testBit p =
        k.testBit (p - (if hi < p then 1 else 0) - (if lo < p then 1 else 0))) := by
  refine ⟨?_, ?_, ?_⟩
  · rw [index1_testBit_gt bl _ hbl hlt]
    exact index1_testBit_self (hi - 1) k hbh
  · exact index1_testBit_self lo _ hbl
  · intro p hphi hplo
    rcases lt_trichotomy p lo with hp | hp | hp
    · rw [index1_testBit_lt bl _ hp]
      have hp2 : p < hi - 1 := by omega
      rw [index1_testBit_lt bh k hp2]
      have e1 : ¬ hi < p := by omega
      have e2 : ¬ lo < p := by omega
      simp [e1, e2]
    · exact absurd hp hplo
    · rw [index1_testBit_gt bl _ hbl hp]
      rcases lt_trichotomy (p - 1) (hi - 1) with hq | hq | hq
      · rw [index1_testBit_lt bh k hq]
        have e1 : ¬ hi < p := by omega
        have e2 : lo < p := hp
        simp [e1, e2]
      · exact absurd (by omega : p = hi) hphi
      · rw [index1_testBit_gt bh k hbh hq]
        have e1 : hi < p := by omega
        have e2 : lo < p := hp
        simp [e1, e2]

/-- A natural number all of whose bits at positions `≥ m` vanish is
below `2 ^ m`. -/
lemma lt_two_pow_of_high_testBit {x m : ℕ}
    (h : ∀ i, m ≤ i → x.testBit i = false) : x < 2 ^ m := by
  have hx : x = x % 2 ^ m := by
    apply Nat.eq_of_testBit_eq
    intro i
    rw [Nat.testBit_mod_two_pow]
    by_cases hi : i < m
    · simp [hi]
    · simp [hi, h i (le_of_not_lt hi)]
  rw [hx]
  exact Nat.mod_lt _ (pow_pos (by norm_num) m)

/-- Full bit characterization of `index2`; shared by the index-utility
and CX developments. -/
lemma index2_testBit (b1 i1 b2 i2 k : ℕ) (hb1 : b1 ≤ 1) (hb2 : b2 ≤ 1)
    (hne : i1 ≠ i2) :
    ((index2 b1 i1 b2 i2 k).testBit i1 = decide (b1 = 1)) ∧
    ((index2 b1 i1 b2 i2 k).testBit i2 = decide (b2 = 1)) ∧
    (∀ p, p ≠ i1 → p ≠ i2 →
      (index2 b1 i1 b2 i2 k).testBit p =
        k.testBit (p - (if i1 < p then 1 else 0) - (if i2 < p then 1 else 0))) ∧
    (∀ n, i1 < n → i2 < n → k < 2 ^ (n - 2) → index2 b1 i1 b2 i2 k < 2 ^ n) := by
  have main : ((index2 b1 i1 b2 i2 k).testBit i1 = decide (b1 = 1)) ∧
      ((index2 b1 i1 b2 i2 k).testBit i2 = decide (b2 = 1)) ∧
      (∀ p, p ≠ i1 → p ≠ i2 →
        (index2 b1 i1 b2 i2 k).testBit p =
          k.testBit (p - (if i1 < p then 1 else 0) - (if i2 < p then 1 else 0))) := by
    rcases lt_or_gt_of_ne hne with hc | hc
    · have hnot : ¬ i1 > i2 := by omega
      have h := index1_index1_testBit b1 i1 b2 i2 k hb1 hb2 hc
      unfold index2
      rw [if_neg hnot]
      refine ⟨h.2.1, h.1, ?_⟩
      intro p hp1 hp2
      rw [h.2.2 p hp2 hp1]
      rw [Nat.sub_sub, Nat.sub_sub, Nat.add_comm]
    · have h := index1_index1_testBit b2 i2 b1 i1 k hb2 hb1 hc
      unfold index2
      rw [if_pos hc]
      exact ⟨h.1, h.2.1, h.2.2⟩
  refine ⟨main.1, main.2.1, main.2.2, ?_⟩
  intro n hn1 hn2 hk
  apply lt_two_pow_of_high_testBit
  intro p hp
  have hp1 : p ≠ i1 := by omega
  have hp2 : p ≠ i2 := by omega
  rw [main.2.2 p hp1 hp2]
  have e1 : i1 < p := by omega
  have e2 : i2 < p := by omega
  rw [if_pos e1, if_pos e2]
  apply Nat.testBit_eq_false_of_lt
  calc k < 2 ^ (n - 2) := hk
    _ ≤ 2 ^ (p - 2) := Nat.pow_le_pow_right (by norm_num) (by omega)

/-- C3: for bits `b1, b2 ∈ {0,1}` and distinct positions `i1 ≠ i2`,
`_index2 b1 i1 b2 i2 k` has bit `i1` equal to `b1`, bit `i2` equal to
`b2`, every other bit `p` equal to bit `p - |{j ∈ {i1,i2} | j < p}|` of
`k` (the bits of `k` in order of increasing position), and the result is
an `n`-bit integer whenever `i1, i2 < n` and `k < 2^(n-2)`. -/
theorem index2_spec (b1 i1 b2 i2 k : ℕ) (hb1 : b1 ≤ 1) (hb2 : b2 ≤ 1)
    (hne : i1 ≠ i2) :
    ((index2 b1 i1 b2 i2 k).testBit i1 = decide (b1 = 1)) ∧
    ((index2 b1 i1 b2 i2 k).testBit i2 = decide (b2 = 1)) ∧
    (∀ p, p ≠ i1 → p ≠ i2 →
      (index2 b1 i1 b2 i2 k).testBit p =
        k.testBit (p - (if i1 < p then 1 else 0) - (if i2 < p then 1 else 0))) ∧
    (∀ n, i1 < n → i2 < n → k < 2 ^ (n - 2) → index2 b1 i1 b2 i2 k < 2 ^ n) :=
  index2_testBit b1 i1 b2 i2 k hb1 hb2 hne

/-- C3 witness: `index2 1 2 0 0 5 = 22`, whose bit `2` is indeed `1`. -/
theorem index2_spec_witness :
    ((1 : ℕ) ≤ 1 ∧ (0 : ℕ) ≤ 1 ∧ (2 : ℕ) ≠ 0) ∧
      (index2 1 2 0 0 5).testBit 2 = true := by
  refine ⟨by norm_num, ?_⟩
  have h := (index2_spec 1 2 0 0 5 (by norm_num) (by norm_num) (by norm_num)).1
  simpa using h

/-- `index1` with a fixed bit and position is injective in the
remaining bitstring. -/
lemma index1_inj {b i : ℕ} (hb : b ≤ 1) {k k' : ℕ}
    (h : index1 b i k = index1 b i k') : k = k' := by
  apply Nat.eq_of_testBit_eq
  intro j
  rcases lt_or_le j i with hj | hj
  · rw [← index1_testBit_lt b k hj, ← index1_testBit_lt b k' hj, h]
  · have hj1 : i < j + 1 := by omega
    have e1 := index1_testBit_gt (p := j + 1) b k hb hj1
    have e2 := index1_testBit_gt (p := j + 1) b k' hb hj1
    simp only [Nat.add_sub_cancel] at e1 e2
    rw [← e1, ← e2, h]

/-- Embedding of the probability loop of `_add_qasm_decision`
(lines 202-206): `p0` accumulates `|ψ[ii]|²` over every index `ii` with
`ii & (1 << qubit) == 0`; exact real arithmetic replaces floating
point, so the loop is a finite sum. -/
noncomputable def probability_zero (n qubit : ℕ) (psi : ℕ → ℂ) : ℝ :=
  ∑ ii ∈ Finset.range (2 ^ n),
    if ii &&& (1 <<< qubit) = 0 then Complex.abs (psi ii) ^ 2 else 0

/-- Embedding of `_add_qasm_decision` (lines 197-213).  The seeded
stream of `random.random()` draws is `rng`; the draw consumes position
`t` and the returned cursor `t + 1` records that exactly one number was
drawn. -/
noncomputable def add_qasm_decision (n qubit : ℕ) (psi : ℕ → ℂ)
    (rng : ℕ → ℝ) (t : ℕ) : (Char × ℝ) × ℕ :=
  let random_number := rng t
  if random_number ≤ probability_zero n qubit psi then
    (('0', Real.sqrt (probability_zero n qubit psi)), t + 1)
  else
    (('1', Real.sqrt (1 - probability_zero n qubit psi)), t + 1)

/-- The claim's formulation of `p0`: the sum of `|ψ[k]|²` over the
indices `k` whose bit `qubit` is `0` (stated with `Nat.testBit`, to be
compared against the source's `k & (1 << qubit) == 0` guard). -/
noncomputable def p0_claim (n qubit : ℕ) (psi : ℕ → ℂ) : ℝ :=
  ∑ ii ∈ (Finset.range (2 ^ n)).filter (fun ii => ii.testBit qubit = false),
    Complex.abs (psi ii) ^ 2

lemma and_shiftLeft_eq_zero_iff (ii qubit : ℕ) :
    ii &&& (1 <<< qubit) = 0 ↔ ii.testBit qubit = false := by
  rw [Nat.one_shiftLeft, Nat.and_two_pow]
  rcases Bool.eq_false_or_eq_true (ii.testBit qubit) with h | h
  · simp [h]
  · simp [h, pow_ne_zero]

lemma probability_zero_eq_p0_claim (n qubit : ℕ) (psi : ℕ → ℂ) :
    probability_zero n qubit psi = p0_claim n qubit psi := by
  rw [p0_claim, Finset.sum_filter]
  apply Finset.sum_congr rfl
  intro ii _
  by_cases h : ii.testBit qubit = false
  · rw [if_pos ((and_shiftLeft_eq_zero_iff ii qubit).mpr h), if_pos h]
  · rw [if_neg (fun hc => h ((and_shiftLeft_eq_zero_iff ii qubit).mp hc)),
      if_neg h]

/-- C1: one call of the decision primitive draws exactly one random
number (the cursor advances from `t` to `t + 1`), computes
`p0 = Σ_{k : bit qubit of k = 0} |ψ[k]|²`, and returns `('0', √p0)`
when `r ≤ p0` — the tie `r = p0` included — and `('1', √(1-p0))`
otherwise. -/
theorem add_qasm_decision_spec (n qubit t : ℕ) (psi : ℕ → ℂ) (rng : ℕ → ℝ) :
    ((add_qasm_decision n qubit psi rng t).2 = t + 1) ∧
    (rng t ≤ p0_claim n qubit psi →
      (add_qasm_decision n qubit psi rng t).1 =
        ('0', Real.sqrt (p0_claim n qubit psi))) ∧
    (p0_claim n qubit psi < rng t →
      (add_qasm_decision n qubit psi rng t).1 =
        ('1', Real.sqrt (1 - p0_claim n qubit psi))) := by
  simp only [add_qasm_decision, probability_zero_eq_p0_claim]
  by_cases h : rng t ≤ p0_claim n qubit psi
  · rw [if_pos h]
    exact ⟨rfl, fun _ => rfl, fun hlt => absurd h (not_le.mpr hlt)⟩
  · rw [if_neg h]
    exact ⟨rfl, fun hle => absurd hle h, fun _ => rfl⟩

/-- C1 witness: on the trivial one-amplitude state with `r = 0`,
`p0 = 1`, the draw satisfies `r ≤ p0` and the call returns
`('0', √p0)`. -/
theorem add_qasm_decision_spec_witness :
    (fun _ => (0 : ℝ)) 0 ≤ p0_claim 0 0 (fun _ => 1) ∧
      (add_qasm_decision 0 0 (fun _ => 1) (fun _ => 0) 0).1 =
        ('0', Real.sqrt (p0_claim 0 0 (fun _ => 1))) := by
  have hp : p0_claim 0 0 (fun _ => (1 : ℂ)) = 1 := by
    have hf : (Finset.range (2 ^ 0)).filter (fun ii => ii.testBit 0 = false)
        = {0} := by decide
    rw [p0_claim, hf]
    simp
  refine ⟨by rw [hp]; norm_num, ?_⟩
  exact (add_qasm_decision_spec 0 0 0 (fun _ => 1) (fun _ => 0)).2.1
    (by rw [hp]; norm_num)

/-- C2 counterexample: the single-qubit state `|1⟩` is normalized and
the draw `r = 0` lies in `[0,1)`, yet `p0 = 0` makes the comparison
`r ≤ p0` succeed, so the decision primitive returns the `'0'` branch
with norm `√0 = 0` — a zero divisor for the measurement kernel. -/
theorem decision_zero_norm_counterexample :
    (∑ ii ∈ Finset.range (2 ^ 1),
        Complex.abs ((fun j => if j = 1 then (1 : ℂ) else 0) ii) ^ 2 = 1) ∧
    ((0 : ℝ) ≤ 0 ∧ (0 : ℝ) < 1) ∧
    (add_qasm_decision 1 0 (fun j => if j = 1 then (1 : ℂ) else 0)
        (fun _ => 0) 0).1.2 = 0 := by
  refine ⟨?_, ⟨le_refl 0, by norm_num⟩, ?_⟩
  · rw [show (2 : ℕ) ^ 1 = 2 by norm_num]
    simp [Finset.sum_range_succ]
  · have hp : probability_zero 1 0 (fun j => if j = 1 then (1 : ℂ) else 0)
        = 0 := by
      rw [probability_zero, show (2 : ℕ) ^ 1 = 2 by norm_num]
      simp [Finset.sum_range_succ]
    simp [add_qasm_decision, hp]

/-- C2 (amended): for a normalized state and a draw strictly inside the
open interval `(0,1)`, the norm returned by the decision primitive is
non-zero: whichever branch is sampled has strictly positive
probability.  (At the boundary draw `r = 0` with `p0 = 0` the `'0'`
branch returns norm `0`, which is why `(0,1)` replaces the claim's
`[0,1)`.) -/
theorem decision_norm_ne_zero (n qubit t : ℕ) (psi : ℕ → ℂ) (rng : ℕ → ℝ)
    (hnorm : ∑ ii ∈ Finset.range (2 ^ n), Complex.abs (psi ii) ^ 2 = 1)
    (h0 : 0 < rng t) (h1 : rng t < 1) :
    (add_qasm_decision n qubit psi rng t).1.2 ≠ 0 := by
  have hle : probability_zero n qubit psi ≤ 1 := by
    rw [← hnorm]
    apply Finset.sum_le_sum
    intro ii _
    by_cases h : ii &&& (1 <<< qubit) = 0
    · rw [if_pos h]
    · rw [if_neg h]
      positivity
  simp only [add_qasm_decision]
  by_cases h : rng t ≤ probability_zero n qubit psi
  · rw [if_pos h]
    have hpos : 0 < probability_zero n qubit psi := lt_of_lt_of_le h0 h
    exact ne_of_gt (Real.sqrt_pos.mpr hpos)
  · rw [if_neg h]
    have hpos : 0 < 1 - probability_zero n qubit psi := by
      rw [not_le] at h
      linarith
    exact ne_of_gt (Real.sqrt_pos.mpr hpos)

/-- C2 witness: a concrete normalized state with the draw `1/2 ∈ (0,1)`
has a non-zero norm. -/
theorem decision_norm_ne_zero_witness :
    (∑ ii ∈ Finset.range (2 ^ 0),
        Complex.abs ((fun _ => (1 : ℂ)) ii) ^ 2 = 1) ∧
    (0 : ℝ) < (fun _ => (1 / 2 : ℝ)) 0 ∧ (fun _ => (1 / 2 : ℝ)) 0 < 1 ∧
    (add_qasm_decision 0 0 (fun _ => 1) (fun _ => (1 / 2 : ℝ)) 0).1.2 ≠ 0 := by
  refine ⟨by simp, by norm_num, by norm_num, ?_⟩
  exact decision_norm_ne_zero 0 0 0 (fun _ => 1) (fun _ => (1 / 2 : ℝ))
    (by simp) (by norm_num) (by norm_num)

/-- `index2` with fixed bits and positions is injective in the
remaining bitstring. -/
lemma index2_inj {b1 i1 b2 i2 : ℕ} (hb1 : b1 ≤ 1) (hb2 : b2 ≤ 1) {k k' : ℕ}
    (h : index2 b1 i1 b2 i2 k = index2 b1 i1 b2 i2 k') : k = k' := by
  unfold index2 at h
  by_cases hc : i1 > i2
  · rw [if_pos hc, if_pos hc] at h
    exact index1_inj hb1 (index1_inj hb2 h)
  · rw [if_neg hc, if_neg hc] at h
    exact index1_inj hb2 (index1_inj hb1 h)

/-- One iteration of the loop body of `_add_qasm_cx` (lines 187-195):
read the two amplitudes whose control bit is `1` into caches, then write
them back crosswise (`psi[ind3] = cache0; psi[ind1] = cache1`). -/
def cx_step (q0 q1 : ℕ) (psi : ℕ → ℂ) (k : ℕ) : ℕ → ℂ :=
  let ind1 := index2 1 q0 0 q1 k
  let ind3 := index2 1 q0 1 q1 k
  let cache0 := psi ind1
  let cache1 := psi ind3
  Function.update (Function.update psi ind3 cache0) ind1 cache1

/-- Embedding of `_add_qasm_cx` (lines 180-195): the loop body applied
for `k` over `range(1 << (n-2))` in order. -/
def add_qasm_cx (n q0 q1 : ℕ) (psi : ℕ → ℂ) : ℕ → ℂ :=
  (List.range (2 ^ (n - 2))).foldl (cx_step q0 q1) psi

lemma cx_step_untouched (q0 q1 : ℕ) (psi : ℕ → ℂ) (k i : ℕ)
    (h1 : i ≠ index2 1 q0 0 q1 k) (h3 : i ≠ index2 1 q0 1 q1 k) :
    cx_step q0 q1 psi k i = psi i := by
  simp only [cx_step]
  rw [Function.update_noteq h1, Function.update_noteq h3]

lemma cx_step_ind1 (q0 q1 : ℕ) (psi : ℕ → ℂ) (k : ℕ) :
    cx_step q0 q1 psi k (index2 1 q0 0 q1 k) = psi (index2 1 q0 1 q1 k) := by
  simp [cx_step]

lemma cx_step_ind3 (q0 q1 : ℕ) (psi : ℕ → ℂ) (k : ℕ)
    (hne : index2 1 q0 0 q1 k ≠ index2 1 q0 1 q1 k) :
    cx_step q0 q1 psi k (index2 1 q0 1 q1 k) = psi (index2 1 q0 0 q1 k) := by
  simp only [cx_step]
  rw [Function.update_noteq (Ne.symm hne), Function.update_same]

/-- The control-1/target-0 index never coincides with a
control-1/target-1 index: they differ at bit `q1`. -/
lemma cx_ind_ne (q0 q1 : ℕ) (hq : q0 ≠ q1) (k k' : ℕ) :
    index2 1 q0 0 q1 k ≠ index2 1 q0 1 q1 k' := by
  intro h
  have h0 : (index2 1 q0 0 q1 k).testBit q1 = false := by
    simpa using (index2_testBit 1 q0 0 q1 k (le_refl 1) (by norm_num) hq).2.1
  have h1 : (index2 1 q0 1 q1 k').testBit q1 = true := by
    simpa using (index2_testBit 1 q0 1 q1 k' (le_refl 1) (le_refl 1) hq).2.1
  rw [h] at h0
  rw [h0] at h1
  exact Bool.false_ne_true h1

lemma cx_ind1_inj (q0 q1 : ℕ) {k k' : ℕ}
    (h : index2 1 q0 0 q1 k = index2 1 q0 0 q1 k') : k = k' :=
  index2_inj (le_refl 1) (by norm_num) h

lemma cx_ind3_inj (q0 q1 : ℕ) {k k' : ℕ}
    (h : index2 1 q0 1 q1 k = index2 1 q0 1 q1 k') : k = k' :=
  index2_inj (le_refl 1) (le_refl 1) h

/-- A point not hit by any iteration's pair of indices keeps its
amplitude across the whole fold. -/
lemma foldl_cx_untouched (q0 q1 : ℕ) (L : List ℕ) (i : ℕ)
    (h : ∀ k ∈ L, i ≠ index2 1 q0 0 q1 k ∧ i ≠ index2 1 q0 1 q1 k) :
    ∀ psi : ℕ → ℂ, (L.foldl (cx_step q0 q1) psi) i = psi i := by
  induction L with
  | nil => intro psi; rfl
  | cons a L ih =>
    intro psi
    rw [List.foldl_cons]
    rw [ih (fun k hk => h k (List.mem_cons_of_mem a hk)) _]
    exact cx_step_untouched q0 q1 psi a i (h a (List.mem_cons_self a L)).1
      (h a (List.mem_cons_self a L)).2

/-- The fold over `range N` swaps each pair `(ind1 k, ind3 k)` with
`k < N` exactly once. -/
lemma foldl_cx_swap (q0 q1 : ℕ) (hq : q0 ≠ q1) :
    ∀ (N : ℕ) (psi : ℕ → ℂ) (k : ℕ), k < N →
      ((List.range N).foldl (cx_step q0 q1) psi) (index2 1 q0 0 q1 k)
          = psi (index2 1 q0 1 q1 k) ∧
      ((List.range N).foldl (cx_step q0 q1) psi) (index2 1 q0 1 q1 k)
          = psi (index2 1 q0 0 q1 k) := by
  intro N
  induction N with
  | zero => intro psi k hk; exact absurd hk (Nat.not_lt_zero k)
  | succ N ih =>
    intro psi k hk
    rw [List.range_succ, List.foldl_append, List.foldl_cons, List.foldl_nil]
    rcases Nat.lt_or_ge k N with hkN | hkN
    · have hne1 : index2 1 q0 0 q1 k ≠ index2 1 q0 0 q1 N :=
        fun h => absurd (cx_ind1_inj q0 q1 h) (by omega)
      have hne1' : index2 1 q0 0 q1 k ≠ index2 1 q0 1 q1 N :=
        cx_ind_ne q0 q1 hq k N
      have hne3 : index2 1 q0 1 q1 k ≠ index2 1 q0 0 q1 N :=
        fun h => cx_ind_ne q0 q1 hq N k h.symm
      have hne3' : index2 1 q0 1 q1 k ≠ index2 1 q0 1 q1 N :=
        fun h => absurd (cx_ind3_inj q0 q1 h) (by omega)
      constructor
      · rw [cx_step_untouched q0 q1 _ N _ hne1 hne1']
        exact (ih psi k hkN).1
      · rw [cx_step_untouched q0 q1 _ N _ hne3 hne3']
        exact (ih psi k hkN).2
    · have hkeq : N = k := by omega
      subst hkeq
      have hinner1 :
          ((List.range N).foldl (cx_step q0 q1) psi) (index2 1 q0 0 q1 N)
            = psi (index2 1 q0 0 q1 N) :=
        foldl_cx_untouched q0 q1 (List.range N) _
          (fun k' hk' =>
            ⟨fun h => absurd (cx_ind1_inj q0 q1 h)
                (by have := List.mem_range.mp hk'; omega),
             cx_ind_ne q0 q1 hq N k'⟩) psi
      have hinner3 :
          ((List.range N).foldl (cx_step q0 q1) psi) (index2 1 q0 1 q1 N)
            = psi (index2 1 q0 1 q1 N) :=
        foldl_cx_untouched q0 q1 (List.range N) _
          (fun k' hk' =>
            ⟨fun h => cx_ind_ne q0 q1 hq k' N h.symm,
             fun h => absurd (cx_ind3_inj q0 q1 h)
                (by have := List.mem_range.mp hk'; omega)⟩) psi
      constructor
      · rw [cx_step_ind1 q0 q1 _ N]
        exact hinner3
      · rw [cx_step_ind3 q0 q1 _ N (cx_ind_ne q0 q1 hq N N)]
        exact hinner1

/-- C4: for distinct control `q0` and target `q1` on `n ≥ 2` qubits,
the CX kernel swaps `ψ[index2 1 q0 0 q1 k]` with `ψ[index2 1 q0 1 q1 k]`
for every `k < 2^(n-2)`, and every amplitude whose control bit `q0` is
`0` is left unchanged. -/
theorem add_qasm_cx_spec (n q0 q1 : ℕ) (hn : 2 ≤ n) (hq : q0 ≠ q1)
    (psi : ℕ → ℂ) :
    (∀ k, k < 2 ^ (n - 2) →
      add_qasm_cx n q0 q1 psi (index2 1 q0 0 q1 k)
          = psi (index2 1 q0 1 q1 k) ∧
      add_qasm_cx n q0 q1 psi (index2 1 q0 1 q1 k)
          = psi (index2 1 q0 0 q1 k)) ∧
    (∀ i, i.testBit q0 = false → add_qasm_cx n q0 q1 psi i = psi i) := by
  constructor
  · intro k hk
    exact foldl_cx_swap q0 q1 hq (2 ^ (n - 2)) psi k hk
  · intro i hi
    apply foldl_cx_untouched
    intro k _
    have hb0 : (index2 1 q0 0 q1 k).testBit q0 = true := by
      simpa using (index2_testBit 1 q0 0 q1 k (le_refl 1) (by norm_num) hq).1
    have hb1 : (index2 1 q0 1 q1 k).testBit q0 = true := by
      simpa using (index2_testBit 1 q0 1 q1 k (le_refl 1) (le_refl 1) hq).1
    constructor
    · intro h
      rw [h, hb0] at hi
      simp at hi
    · intro h
      rw [h, hb1] at hi
      simp at hi

/-- C4 witness: on two qubits with control `0` and target `1`, the
amplitudes at the two control-1 indices are exchanged. -/
theorem add_qasm_cx_spec_witness :
    ((2 : ℕ) ≤ 2 ∧ (0 : ℕ) ≠ 1 ∧ (0 : ℕ) < 2 ^ (2 - 2)) ∧
      add_qasm_cx 2 0 1 (fun i => (i : ℂ)) (index2 1 0 0 1 0)
        = (fun i => (i : ℂ)) (index2 1 0 1 1 0) := by
  refine ⟨⟨le_refl 2, by norm_num, by norm_num⟩, ?_⟩
  exact ((add_qasm_cx_spec 2 0 1 (le_refl 2) (by norm_num)
    (fun i => (i : ℂ))).1 0 (by norm_num)).1

/-- A lowered operation record, mirroring the loosely-typed dicts of
`circuit['qasm']`: a `name` discriminator plus the index and angle
fields the four supported kinds read (absent fields in a Python dict
simply go unread here). -/
structure Operation where
  name : String
  qubit_indices : List ℕ
  cbit_indices : List ℕ
  theta : ℝ
  phi : ℝ
  lam : ℝ

/-- Body of the double loop of `_add_qasm_single` (lines 172-178) at
composed index `k = k1 | k2`: read both amplitudes of the pair into
caches, then write `gate · (cache0, cache1)ᵀ` back. -/
noncomputable def single_step (g00 g01 g10 g11 : ℂ) (qubit : ℕ)
    (psi : ℕ → ℂ) (k : ℕ) : ℕ → ℂ :=
  let bit := 1 <<< qubit
  let cache0 := psi k
  let cache1 := psi (k ||| bit)
  Function.update (Function.update psi k (g00 * cache0 + g01 * cache1))
    (k ||| bit) (g10 * cache0 + g11 * cache1)

/-- Embedding of `_add_qasm_single` (lines 164-178): `k1` ranges over
`range(0, 1 << n, 1 << (qubit+1))` — the multiples `j·2^(qubit+1)` with
`j < ⌈2^n / 2^(qubit+1)⌉` — and `k2` over `range(0, 1 << qubit)`. -/
noncomputable def add_qasm_single (n : ℕ) (g00 g01 g10 g11 : ℂ)
    (qubit : ℕ) (psi : ℕ → ℂ) : ℕ → ℂ :=
  ((List.range ((2 ^ n + (1 <<< (qubit + 1)) - 1) / (1 <<< (qubit + 1)))).map
      (fun j => j * (1 <<< (qubit + 1)))).foldl
    (fun acc k1 =>
      (List.range (1 <<< qubit)).foldl
        (fun acc2 k2 => single_step g00 g01 g10 g11 qubit acc2 (k1 ||| k2))
        acc)
    psi

/-- Embedding of `_add_qasm_measure` (lines 215-230).  `int(outcome)`
becomes `o`; Python's `c & ~bit` on non-negative ints clears bit `cbit`,
which is `Nat.ldiff c bit`; the state update loop touches exactly the
indices below `2^n`.  Division of a complex amplitude by the real norm
is exact arithmetic (`x / 0 = 0` in the degenerate zero-norm case,
where numpy would produce non-finite values). -/
noncomputable def add_qasm_measure (n qubit cbit : ℕ) (rng : ℕ → ℝ)
    (psi : ℕ → ℂ) (c t : ℕ) : (ℕ → ℂ) × ℕ × ℕ :=
  let d := add_qasm_decision n qubit psi rng t
  let outcome := d.1.1
  let norm := d.1.2
  let o : ℕ := if outcome = '1' then 1 else 0
  let psi2 : ℕ → ℂ := fun ii =>
    if ii < 2 ^ n then
      (if (ii >>> qubit) &&& 1 = o then psi ii / (norm : ℂ) else 0)
    else psi ii
  let bit := 1 <<< cbit
  (psi2, Nat.ldiff c bit ||| (o <<< cbit), d.2)

/-- Embedding of `_add_qasm_reset` (lines 232-256): measure into a
scratch copy `temp`; on outcome `'1'` zero the state and accumulate
`temp[ii]` into `ii` with bit `qubit` cleared (`(~(1 << qubit)) & ii`),
otherwise adopt `temp`. -/
noncomputable def add_qasm_reset (n qubit : ℕ) (rng : ℕ → ℝ)
    (psi : ℕ → ℂ) (t : ℕ) : (ℕ → ℂ) × ℕ :=
  let d := add_qasm_decision n qubit psi rng t
  let outcome := d.1.1
  let norm := d.1.2
  let o : ℕ := if outcome = '1' then 1 else 0
  let temp : ℕ → ℂ := fun ii =>
    if ii < 2 ^ n then
      (if (ii >>> qubit) &&& 1 = o then psi ii / (norm : ℂ) else 0)
    else psi ii
  if outcome = '1' then
    ((List.range (2 ^ n)).foldl
      (fun acc ii =>
        let iip := Nat.ldiff ii (1 <<< qubit)
        Function.update acc iip (acc iip + temp ii))
      (fun _ => 0), d.2)
  else (temp, d.2)

/-- One step of the dispatch loop of `run` (lines 267-295): the
operation state is `(ψ, classical register, rng cursor)`; an
unsupported `name` yields `none` (the `else` branch that sets
`status = 'ERROR'` and returns).  The `U` branch builds the gate matrix
of lines 274-277. -/
noncomputable def apply_op (n : ℕ) (rng : ℕ → ℝ) (op : Operation)
    (st : (ℕ → ℂ) × ℕ × ℕ) : Option ((ℕ → ℂ) × ℕ × ℕ) :=
  if op.name = "U" then
    let qubit := op.qubit_indices.getD 0 0
    let theta := op.theta
    let phi := op.phi
    let lam := op.lam
    some (add_qasm_single n (Real.cos (theta / 2) : ℂ)
      (-Complex.exp (Complex.I * (lam : ℂ)) * (Real.sin (theta / 2) : ℂ))
      (Complex.exp (Complex.I * (phi : ℂ)) * (Real.sin (theta / 2) : ℂ))
      (Complex.exp (Complex.I * (phi : ℂ) + Complex.I * (lam : ℂ))
        * (Real.cos (theta / 2) : ℂ))
      qubit st.1, st.2.1, st.2.2)
  else if op.name = "CX" then
    some (add_qasm_cx n (op.qubit_indices.getD 0 0)
      (op.qubit_indices.getD 1 0) st.1, st.2.1, st.2.2)
  else if op.name = "measure" then
    some (add_qasm_measure n (op.qubit_indices.getD 0 0)
      (op.cbit_indices.getD 0 0) rng st.1 st.2.1 st.2.2)
  else if op.name = "reset" then
    let r := add_qasm_reset n (op.qubit_indices.getD 0 0) rng st.1 st.2.2
    some (r.1, st.2.1, r.2)
  else
    none

/-- The inner operation loop of one shot (lines 267-295), with the
early `return` on an unsupported operation modelled by `none`. -/
noncomputable def run_ops (n : ℕ) (rng : ℕ → ℝ) :
    List Operation → (ℕ → ℂ) × ℕ × ℕ → Option ((ℕ → ℂ) × ℕ × ℕ)
  | [], st => some st
  | op :: rest, st =>
    match apply_op n rng op st with
    | some st2 => run_ops n rng rest st2
    | none => none

/-- Little-endian binary digits of `c` (empty for `c = 0`). -/
def bin_digits (c : ℕ) : List Char :=
  if h : c = 0 then []
  else (if c % 2 = 1 then '1' else '0') :: bin_digits (c / 2)
decreasing_by exact Nat.div_lt_self (Nat.pos_of_ne_zero h) one_lt_two

/-- `bin(c)[2:]`: the standard binary digits, most significant first,
with `"0"` for `c = 0`. -/
def bin_str (c : ℕ) : List Char :=
  if c = 0 then ['0'] else (bin_digits c).reverse

/-- `bin(c)[2:].zfill(m)` (line 297): pad on the left with `'0'` up to
width `m` (no truncation if already longer). -/
def to_bitstring (m c : ℕ) : String :=
  String.mk (List.replicate (m - (bin_str c).length) '0' ++ bin_str c)

/-- The shot loop of `run` (lines 262-297): each shot re-initializes
`ψ = e₀` and the classical register, runs the operation list (threading
the shared rng cursor across shots), and appends the zero-filled binary
outcome string. -/
noncomputable def run_shots (n m : ℕ) (ops : List Operation)
    (rng : ℕ → ℝ) :
    ℕ → ((ℕ → ℂ) × ℕ) × ℕ → List String →
      Option (List String × (((ℕ → ℂ) × ℕ) × ℕ))
  | 0, st, acc => some (acc, st)
  | s + 1, st, acc =>
    match run_ops n rng ops ((fun ii => if ii = 0 then 1 else 0), 0, st.2) with
    | some st2 =>
      run_shots n m ops rng s ((st2.1, st2.2.1), st2.2.2)
        (acc ++ [to_bitstring m st2.2.1])
    | none => none

/-- `dict(Counter(outcomes))` (line 304) as an association list: one
entry per distinct outcome, valued by its multiplicity. -/
def counter (l : List String) : List (String × ℕ) :=
  l.dedup.map (fun s => (s, List.count s l))

/-- The result record assembled by `run` (lines 296-306): `data` fields
are `none` when `run` does not write them. -/
structure SimResult where
  status : String
  quantum_state : Option (ℕ → ℂ)
  classical_state : Option ℕ
  counts : Option (List (String × ℕ))

/-- Embedding of `QasmSimulator.run` (lines 258-306).  Before the shot
loop the instance holds `_quantum_state = 0` and `_classical_state = 0`
(from `__init__`), modelled by the zero function; `shots = 0` (Python's
empty `range`) skips the loop entirely. -/
noncomputable def run (n m shots : ℕ) (ops : List Operation)
    (rng : ℕ → ℝ) : SimResult :=
  match run_shots n m ops rng shots (((fun _ => 0), 0), 0) [] with
  | none => SimResult.mk "ERROR" none none none
  | some (outcomes, st) =>
    if shots = 1 then SimResult.mk "DONE" (some st.1.1) (some st.1.2) none
    else SimResult.mk "DONE" none none (some (counter outcomes))

lemma apply_op_unsupported (n : ℕ) (rng : ℕ → ℝ) (op : Operation)
    (hbad : ¬(op.name = "U" ∨ op.name = "CX" ∨ op.name = "measure" ∨
      op.name = "reset"))
    (st : (ℕ → ℂ) × ℕ × ℕ) : apply_op n rng op st = none := by
  push_neg at hbad
  obtain ⟨h1, h2, h3, h4⟩ := hbad
  simp [apply_op, h1, h2, h3, h4]

lemma run_ops_append (n : ℕ) (rng : ℕ → ℝ) (l1 l2 : List Operation) :
    ∀ st, run_ops n rng (l1 ++ l2) st
      = (run_ops n rng l1 st).bind (run_ops n rng l2) := by
  induction l1 with
  | nil => intro st; rfl
  | cons a l1 ih =>
    intro st
    cases h : apply_op n rng a st with
    | none => simp [run_ops, h]
    | some st2 => simp [run_ops, h, ih st2]

/-- An operation list containing an unsupported entry always aborts the
inner loop, whatever follows the entry. -/
lemma run_ops_bad (n : ℕ) (rng : ℕ → ℝ) (pre rest : List Operation)
    (bad : Operation)
    (hbad : ¬(bad.name = "U" ∨ bad.name = "CX" ∨ bad.name = "measure" ∨
      bad.name = "reset"))
    (st : (ℕ → ℂ) × ℕ × ℕ) :
    run_ops n rng (pre ++ bad :: rest) st = none := by
  rw [run_ops_append]
  cases h : run_ops n rng pre st with
  | none => rfl
  | some st2 => simp [run_ops, apply_op_unsupported n rng bad hbad st2]

/-- C5: if the operation list is `pre ++ bad :: rest` where every entry
of `pre` is supported and `bad` is not, `run` returns a result with
status `"ERROR"`, and the result does not depend on the operations after
`bad` — none of them is executed. -/
theorem run_unknown_op (n m shots : ℕ) (hshots : 0 < shots)
    (pre rest : List Operation) (bad : Operation)
    (hpre : ∀ op ∈ pre, op.name = "U" ∨ op.name = "CX" ∨
      op.name = "measure" ∨ op.name = "reset")
    (hbad : ¬(bad.name = "U" ∨ bad.name = "CX" ∨ bad.name = "measure" ∨
      bad.name = "reset"))
    (rng : ℕ → ℝ) :
    (run n m shots (pre ++ bad :: rest) rng).status = "ERROR" ∧
    (∀ rest2 : List Operation,
      run n m shots (pre ++ bad :: rest2) rng
        = run n m shots (pre ++ bad :: rest) rng) := by
  obtain ⟨s, rfl⟩ : ∃ s, shots = s + 1 := ⟨shots - 1, by omega⟩
  have hnone : ∀ (rest' : List Operation) st acc,
      run_shots n m (pre ++ bad :: rest') rng (s + 1) st acc = none := by
    intro rest' st acc
    simp [run_shots, run_ops_bad n rng pre rest' bad hbad]
  constructor
  · unfold run
    rw [hnone rest _ _]
  · intro rest2
    unfold run
    rw [hnone rest _ _, hnone rest2 _ _]

/-- C5 witness: a single unsupported `"FOO"` operation produces status
`"ERROR"`. -/
theorem run_unknown_op_witness :
    0 < 1 ∧
      (run 1 1 1 ([] ++ Operation.mk "FOO" [] [] 0 0 0 :: [])
        (fun _ => 0)).status = "ERROR" := by
  refine ⟨by norm_num, ?_⟩
  exact (run_unknown_op 1 1 1 (by norm_num) [] []
    (Operation.mk "FOO" [] [] 0 0 0)
    (fun op h => absurd h (List.not_mem_nil op))
    (by simp) (fun _ => 0)).1

/-- C7: a reset operation (any operation record whose `name` is
`"reset"`, whatever its other fields) succeeds and leaves the classical
register exactly as it was: `_add_qasm_reset` writes only the quantum
state and the rng cursor. -/
theorem reset_preserves_classical (n : ℕ) (rng : ℕ → ℝ) (op : Operation)
    (hname : op.name = "reset") (psi : ℕ → ℂ) (c t : ℕ) :
    (apply_op n rng op (psi, c, t)).map (fun st => st.2.1) = some c := by
  simp [apply_op, hname]

/-- C7 witness: a concrete reset on one qubit keeps the classical
register value `5`. -/
theorem reset_preserves_classical_witness :
    (Operation.mk "reset" [0] [] 0 0 0).name = "reset" ∧
      (apply_op 1 (fun _ => 0) (Operation.mk "reset" [0] [] 0 0 0)
        ((fun ii => if ii = 0 then 1 else 0), 5, 0)).map (fun st => st.2.1)
        = some 5 :=
  ⟨rfl, reset_preserves_classical 1 (fun _ => 0) _ rfl
    (fun ii => if ii = 0 then 1 else 0) 5 0⟩

/-- The classical-register write of the measurement kernel keeps the
register below `2^m` when the destination bit is in range. -/
lemma classical_write_lt (m cbit c o : ℕ) (hc : c < 2 ^ m) (hcb : cbit < m)
    (ho : o ≤ 1) :
    Nat.ldiff c (1 <<< cbit) ||| (o <<< cbit) < 2 ^ m := by
  apply lt_two_pow_of_high_testBit
  intro i hi
  have hci : c.testBit i = false :=
    Nat.testBit_eq_false_of_lt
      (lt_of_lt_of_le hc (Nat.pow_le_pow_right (by norm_num) hi))
  rw [Nat.testBit_lor, Nat.testBit_ldiff, hci]
  simp only [Bool.false_and, Bool.false_or]
  rw [Nat.testBit_shiftLeft, testBit_of_le_one ho]
  have hne : ¬ (i - cbit = 0) := by omega
  simp [hne]

lemma apply_op_isSome (n : ℕ) (rng : ℕ → ℝ) (op : Operation)
    (hsupp : op.name = "U" ∨ op.name = "CX" ∨ op.name = "measure" ∨
      op.name = "reset")
    (st : (ℕ → ℂ) × ℕ × ℕ) : (apply_op n rng op st).isSome := by
  rcases hsupp with h | h | h | h <;> simp [apply_op, h]

lemma apply_op_classical_bound (n m : ℕ) (rng : ℕ → ℝ) (op : Operation)
    (hcb : op.name = "measure" → op.cbit_indices.getD 0 0 < m)
    (psi : ℕ → ℂ) (c t : ℕ) (hc : c < 2 ^ m) {st2 : (ℕ → ℂ) × ℕ × ℕ}
    (h : apply_op n rng op (psi, c, t) = some st2) : st2.2.1 < 2 ^ m := by
  unfold apply_op at h
  split_ifs at h with h1 h2 h3 h4
  · cases h
    exact hc
  · cases h
    exact hc
  · cases h
    apply classical_write_lt m _ c _ hc (hcb h3)
    split
    · exact le_refl 1
    · exact Nat.zero_le 1
  · cases h
    exact hc

lemma run_ops_supported (n m : ℕ) (rng : ℕ → ℝ) :
    ∀ (ops : List Operation),
      (∀ op ∈ ops,
        (op.name = "U" ∨ op.name = "CX" ∨ op.name = "measure" ∨
          op.name = "reset") ∧
        (op.name = "measure" → op.cbit_indices.getD 0 0 < m)) →
      ∀ (psi : ℕ → ℂ) (c t : ℕ), c < 2 ^ m →
        ∃ st2, run_ops n rng ops (psi, c, t) = some st2 ∧
          st2.2.1 < 2 ^ m := by
  intro ops
  induction ops with
  | nil => exact fun _ psi c t hc => ⟨(psi, c, t), rfl, hc⟩
  | cons a ops ih =>
    intro hops psi c t hc
    have ha := hops a (List.mem_cons_self a ops)
    obtain ⟨st2, hst2⟩ :=
      Option.isSome_iff_exists.mp (apply_op_isSome n rng a ha.1 (psi, c, t))
    have hb := apply_op_classical_bound n m rng a ha.2 psi c t hc hst2
    obtain ⟨st3, h3, hb3⟩ :=
      ih (fun op hop => hops op (List.mem_cons_of_mem a hop))
        st2.1 st2.2.1 st2.2.2 hb
    refine ⟨st3, ?_, hb3⟩
    simp only [run_ops, hst2]
    exact h3

lemma run_shots_supported (n m : ℕ) (ops : List Operation) (rng : ℕ → ℝ)
    (hops : ∀ op ∈ ops,
      (op.name = "U" ∨ op.name = "CX" ∨ op.name = "measure" ∨
        op.name = "reset") ∧
      (op.name = "measure" → op.cbit_indices.getD 0 0 < m)) :
    ∀ (shots : ℕ) (st : ((ℕ → ℂ) × ℕ) × ℕ) (acc : List String),
      (∀ s ∈ acc, ∃ c, c < 2 ^ m ∧ s = to_bitstring m c) →
      ∃ outcomes st2, run_shots n m ops rng shots st acc
          = some (outcomes, st2) ∧
        outcomes.length = acc.length + shots ∧
        ∀ s ∈ outcomes, ∃ c, c < 2 ^ m ∧ s = to_bitstring m c := by
  intro shots
  induction shots with
  | zero => exact fun st acc hacc => ⟨acc, st, rfl, by simp, hacc⟩
  | succ s ih =>
    intro st acc hacc
    obtain ⟨st2, h2, hb⟩ := run_ops_supported n m rng ops hops
      (fun ii => if ii = 0 then 1 else 0) 0 st.2 (pow_pos (by norm_num) m)
    obtain ⟨outcomes, st3, h3, hlen, hout⟩ :=
      ih ((st2.1, st2.2.1), st2.2.2) (acc ++ [to_bitstring m st2.2.1])
        (by
          intro x hx
          rcases List.mem_append.mp hx with hx | hx
          · exact hacc x hx
          · rw [List.mem_singleton] at hx
            exact ⟨st2.2.1, hb, hx⟩)
    refine ⟨outcomes, st3, ?_, by simp at hlen ⊢; omega, hout⟩
    simp only [run_shots, h2]
    exact h3

lemma bin_digits_length_le : ∀ (m c : ℕ), c < 2 ^ m →
    (bin_digits c).length ≤ m := by
  intro m
  induction m with
  | zero =>
    intro c hc
    have hc0 : c = 0 := by simpa using hc
    subst hc0
    unfold bin_digits
    simp
  | succ m ih =>
    intro c hc
    unfold bin_digits
    by_cases h : c = 0
    · simp [h]
    · rw [dif_neg h]
      simp only [List.length_cons]
      have h2 : c < 2 ^ m * 2 := by
        rw [← pow_succ]
        exact hc
      have h3 : c / 2 < 2 ^ m := by omega
      exact Nat.succ_le_succ (ih _ h3)

lemma bin_digits_chars : ∀ (m c : ℕ), c < 2 ^ m →
    ∀ ch ∈ bin_digits c, ch = '0' ∨ ch = '1' := by
  intro m
  induction m with
  | zero =>
    intro c hc
    have hc0 : c = 0 := by simpa using hc
    subst hc0
    unfold bin_digits
    simp
  | succ m ih =>
    intro c hc ch hch
    unfold bin_digits at hch
    by_cases h : c = 0
    · simp [h] at hch
    · rw [dif_neg h] at hch
      rcases List.mem_cons.mp hch with h1 | h1
      · subst h1
        by_cases h2 : c % 2 = 1
        · rw [if_pos h2]
          right
          rfl
        · rw [if_neg h2]
          left
          rfl
      · have h2 : c < 2 ^ m * 2 := by
          rw [← pow_succ]
          exact hc
        have h3 : c / 2 < 2 ^ m := by omega
        exact ih _ h3 ch h1

lemma bin_str_length_le {m c : ℕ} (hm : 1 ≤ m) (hc : c < 2 ^ m) :
    (bin_str c).length ≤ m := by
  rw [bin_str]
  by_cases h : c = 0
  · rw [if_pos h]
    simpa using hm
  · rw [if_neg h, List.length_reverse]
    exact bin_digits_length_le m c hc

lemma bin_str_chars (c : ℕ) : ∀ ch ∈ bin_str c, ch = '0' ∨ ch = '1' := by
  intro ch hch
  rw [bin_str] at hch
  by_cases h : c = 0
  · rw [if_pos h] at hch
    left
    simpa using hch
  · rw [if_neg h] at hch
    exact bin_digits_chars c c (Nat.lt_two_pow c) ch (List.mem_reverse.mp hch)

lemma to_bitstring_length {m c : ℕ} (hm : 1 ≤ m) (hc : c < 2 ^ m) :
    (to_bitstring m c).length = m := by
  show (List.replicate (m - (bin_str c).length) '0' ++ bin_str c).length = m
  rw [List.length_append, List.length_replicate]
  have := bin_str_length_le hm hc
  omega

lemma to_bitstring_chars (m c : ℕ) :
    ∀ ch ∈ (to_bitstring m c).data, ch = '0' ∨ ch = '1' := by
  intro ch hch
  rcases List.mem_append.mp hch with h | h
  · left
    exact List.eq_of_mem_replicate h
  · exact bin_str_chars c ch h

lemma counter_sum (l : List String) :
    ((counter l).map Prod.snd).sum = l.length := by
  have hcomp : (Prod.snd ∘ fun s : String => (s, List.count s l))
      = fun s => List.count s l := rfl
  rw [counter, List.map_map, hcomp]
  exact List.sum_map_count_dedup_eq_length l

lemma counter_mem {l : List String} {p : String × ℕ} (hp : p ∈ counter l) :
    p.1 ∈ l ∧ 0 < p.2 := by
  rw [counter, List.mem_map] at hp
  obtain ⟨s, hs, rfl⟩ := hp
  have hsl : s ∈ l := List.mem_dedup.mp hs
  exact ⟨hsl, List.count_pos_iff.mpr hsl⟩

/-- C6 (amended with `m ≥ 1`): for a circuit with `m ≥ 1` classical
bits, an operation list of supported operations whose measure
destinations are in range, and `shots > 1`, the result has status
`"DONE"` and carries a counts map whose keys are length-`m` strings over
`'0'`/`'1'`, whose values are positive, and whose values sum to
`shots`.  (For `m = 0` the zero register is still printed as the
one-character string `"0"`, so the length clause fails as stated.) -/
theorem run_counts_spec (n m shots : ℕ) (ops : List Operation)
    (rng : ℕ → ℝ) (hm : 1 ≤ m) (hshots : 1 < shots)
    (hops : ∀ op ∈ ops,
      (op.name = "U" ∨ op.name = "CX" ∨ op.name = "measure" ∨
        op.name = "reset") ∧
      (op.name = "measure" → op.cbit_indices.getD 0 0 < m)) :
    (run n m shots ops rng).status = "DONE" ∧
    ∃ cnts, (run n m shots ops rng).counts = some cnts ∧
      (∀ p ∈ cnts, p.1.length = m ∧
        (∀ ch ∈ p.1.data, ch = '0' ∨ ch = '1') ∧ 0 < p.2) ∧
      (cnts.map Prod.snd).sum = shots := by
  obtain ⟨outcomes, st2, hrs, hlen, hout⟩ :=
    run_shots_supported n m ops rng hops shots (((fun _ => 0), 0), 0) []
      (by simp)
  have hne1 : shots ≠ 1 := by omega
  have hrun : run n m shots ops rng
      = SimResult.mk "DONE" none none (some (counter outcomes)) := by
    unfold run
    rw [hrs]
    simp [hne1]
  rw [hrun]
  refine ⟨rfl, counter outcomes, rfl, ?_, ?_⟩
  · intro p hp
    obtain ⟨hmem, hpos⟩ := counter_mem hp
    obtain ⟨c, hc, heq⟩ := hout p.1 hmem
    refine ⟨?_, ?_, hpos⟩
    · rw [heq]
      exact to_bitstring_length hm hc
    · rw [heq]
      exact to_bitstring_chars m c
  · rw [counter_sum]
    simp at hlen
    omega

/-- C6 counterexample: a circuit with `m = 0` classical bits, no
operations and `shots = 2` produces the counts map `{"0": 2}` whose
sole key has length `1 ≠ m`: `bin(0)[2:].zfill(0)` is `"0"`. -/
theorem run_counts_counterexample :
    (run 1 0 2 [] (fun _ => 0)).status = "DONE" ∧
    (run 1 0 2 [] (fun _ => 0)).counts = some [("0", 2)] ∧
    ¬ ("0".length = 0) := by
  exact ⟨rfl, rfl, by decide⟩

/-- C6 witness: with `m = 1`, `shots = 2` and no operations the
conclusion holds concretely. -/
theorem run_counts_spec_witness :
    ((1 : ℕ) ≤ 1 ∧ 1 < 2) ∧
    ((run 1 1 2 [] (fun _ => 0)).status = "DONE" ∧
      ∃ cnts, (run 1 1 2 [] (fun _ => 0)).counts = some cnts ∧
        (∀ p ∈ cnts, p.1.length = 1 ∧
          (∀ ch ∈ p.1.data, ch = '0' ∨ ch = '1') ∧ 0 < p.2) ∧
        (cnts.map Prod.snd).sum = 2) :=
  ⟨⟨le_refl 1, by norm_num⟩,
    run_counts_spec 1 1 2 [] (fun _ => 0) (le_refl 1) (by norm_num)
      (by simp)⟩

/-- Embedding of `QasmSimulator.__init__` (lines 146-162) as seen by
the construction contract: it stores the unrolled circuit's qubit and
cbit counts and the shot count, seeds the generator, and contains no
validation of `shots` or of the qubit count whatsoever; `Option` is the
(never used) failure channel of construction. -/
def qasm_simulator_init (number_of_qubits number_of_cbits shots : ℕ) :
    Option (ℕ × ℕ × ℕ) :=
  some (number_of_qubits, number_of_cbits, shots)

/-- C9 counterexample: with the invalid shot count `0`, construction
succeeds — no error is reported at construction — and `run()` then
returns status `"DONE"` (Python's `range(0)` skips the shot loop), so
the error is reported neither at construction nor at run. -/
theorem init_no_validation_counterexample :
    qasm_simulator_init 1 1 0 = some (1, 1, 0) ∧
      (run 1 1 0 [] (fun _ => 0)).status = "DONE" :=
  ⟨rfl, rfl⟩

/-- C9 (amended): no construction parameter is validated: a
non-positive `shots` is accepted by the constructor, and `run()` then
silently returns a `"DONE"` result with an empty counts map instead of
reporting an error anywhere. -/
theorem init_no_validation (nq nc n m : ℕ) (ops : List Operation)
    (rng : ℕ → ℝ) :
    qasm_simulator_init nq nc 0 = some (nq, nc, 0) ∧
      (run n m 0 ops rng).status = "DONE" ∧
      (run n m 0 ops rng).counts = some [] :=
  ⟨rfl, rfl, rfl⟩

/-- The seed actually used by `__init__`: the `seed` parameter defaults
to `random.random()` evaluated once, at class-definition time
(`module_default`); an explicit seed overrides it.  The third argument
models the fresh entropy that would be available at each construction:
the code never consults it, because Python does not re-evaluate the
default expression per call. -/
def mk_seed (explicit_seed : Option ℝ) (module_default : ℝ)
    (_construction_entropy : ℝ) : ℝ :=
  explicit_seed.getD module_default

/-- `QasmSimulator(circuit, shots, seed).run()`: `random.seed(seed)` in
`__init__` makes the draw stream a function `stream_of` of the chosen
seed alone, consumed sequentially by `run`. -/
noncomputable def construct_and_run (n m shots : ℕ) (ops : List Operation)
    (stream_of : ℝ → ℕ → ℝ) (explicit_seed : Option ℝ)
    (module_default construction_entropy : ℝ) : SimResult :=
  run n m shots ops
    (stream_of (mk_seed explicit_seed module_default construction_entropy))

/-- C8: with an explicit seed, construct-then-run is a function of
`(circuit, shots, seed)` alone — the result does not depend on the
module-level default draw nor on construction-time entropy, so two
complete executions of the same triple are bit-identical. -/
theorem run_deterministic (n m shots : ℕ) (ops : List Operation)
    (stream_of : ℝ → ℕ → ℝ) (seed md1 md2 e1 e2 : ℝ) :
    construct_and_run n m shots ops stream_of (some seed) md1 e1
      = construct_and_run n m shots ops stream_of (some seed) md2 e2 :=
  rfl

/-- C10: the default-seed expression is evaluated exactly once, so
every default-seeded construction in the same process receives the same
module-level seed value regardless of the entropy available when it is
constructed, and two such constructions produce identical results. -/
theorem default_seed_deterministic (n m shots : ℕ) (ops : List Operation)
    (stream_of : ℝ → ℕ → ℝ) (module_default e1 e2 : ℝ) :
    mk_seed none module_default e1 = mk_seed none module_default e2 ∧
      construct_and_run n m shots ops stream_of none module_default e1
        = construct_and_run n m shots ops stream_of none module_default e2 :=
  ⟨rfl, rfl⟩

end QasmSim

